import Mathlib

/-!
Verification of the collection-sorting and pagination configuration of a
static blog built with Eleventy.

Source under study:

* `eleventy.config.js`
  ```js
  eleventyConfig.addCollection("sortedPosts", function (collectionsApi) {
    return collectionsApi.getFilteredByTag("post")
      .sort((a, b) => b.data.index - a.data.index);
  });
  ```

* `src/posts.11tydata.js`
  ```js
  export default {
    pagination: {
      data: "collections.post",
      size: 1,
      before: function(paginationData, fullData) {
        return paginationData.sort((a, b) => a.data.index - b.data.index);
      }
    }
  }
  ```

The embedding models ECMAScript `Array.prototype.sort` faithfully for these
call sites: the comparator subtracts JS numbers (a missing front-matter
`index` reads as `undefined`, and `undefined` in a subtraction yields `NaN`);
the `SortCompare` abstract operation coerces a `NaN` comparator result to
`+0`; the sort is stable (mandated by ECMAScript since ES2019), and it sorts
the array in place, returning the very array object it was called on.
Numbers are modelled as integers: every `index` in the repository's front
matter is a small integer literal.
-/

/-- JS number value produced by the comparator subtraction: either `NaN`
or an integer. -/
inductive JSNum where
  | nan : JSNum
  | num (n : Int) : JSNum
deriving DecidableEq

/-- JS subtraction `x - y` applied to a front-matter `index` field: a
missing field reads as `undefined`, and any subtraction with an
`undefined` operand evaluates to `NaN` (no exception is thrown). -/
def jsSub : Option Int → Option Int → JSNum
  | some x, some y => JSNum.num (x - y)
  | _, _ => JSNum.nan

/-- ECMAScript `SortCompare` coercion of a comparator result: a `NaN`
result is treated as `+0` (the two elements compare as equal). -/
def sortKey : JSNum → Int
  | JSNum.nan => 0
  | JSNum.num n => n

/-- Front-matter data of one content file: the numeric ordering key
`index` (absent when the author did not set it), plus `id` and `title`. -/
structure ItemData where
  index : Option Int
  id : String
  title : String
deriving DecidableEq

/-- One discovered content file together with its front-matter data. -/
structure ContentItem where
  data : ItemData
deriving DecidableEq

/-- Comparator of the `sortedPosts` collection callback in
`eleventy.config.js`: `(a, b) => b.data.index - a.data.index`, composed
with the `SortCompare` coercion. -/
def cmpDesc (a b : ContentItem) : Int :=
  sortKey (jsSub b.data.index a.data.index)

/-- Comparator of the pagination `before` hook in `posts.11tydata.js`:
`(a, b) => a.data.index - b.data.index`, composed with the `SortCompare`
coercion. -/
def cmpAsc (a b : ContentItem) : Int :=
  sortKey (jsSub a.data.index b.data.index)

/-- Stable insertion into a list already arranged by the comparator `c`:
the new element is placed before the first element it does not compare
strictly greater than. -/
def jsInsert {α : Type} (c : α → α → Int) (x : α) : List α → List α
  | [] => [x]
  | b :: l => if c x b ≤ 0 then x :: b :: l else b :: jsInsert c x l

/-- Stable comparator sort, the behaviour ECMAScript mandates for
`Array.prototype.sort` with a consistent comparator (and a deterministic
refinement of it for an inconsistent one). -/
def jsSort {α : Type} (c : α → α → Int) : List α → List α
  | [] => []
  | x :: l => jsInsert c x (jsSort c l)

/-- ECMAScript `Array.prototype.sort` sorts in place and returns the array
it was called on. Modelled as a pair: the returned value together with the
content of the caller's array after the call (the two coincide). -/
def jsSortInPlace {α : Type} (c : α → α → Int) (arr : List α) :
    List α × List α :=
  (jsSort c arr, jsSort c arr)

/-- The `sortedPosts` collection callback: sort the tag-filtered array of
post items with the descending comparator. -/
def sortedPosts (posts : List ContentItem) : List ContentItem :=
  jsSort cmpDesc posts

/-- The pagination `before` hook: sort `paginationData` with the ascending
comparator. -/
def paginationBefore (paginationData : List ContentItem) : List ContentItem :=
  jsSort cmpAsc paginationData

/-- The `sortedPosts` callback viewed with the in-place effect of
`Array.prototype.sort` made explicit: first component the returned array,
second component the post-call content of the array the sort ran on. -/
def sortedPostsCall (arr : List ContentItem) :
    List ContentItem × List ContentItem :=
  jsSortInPlace cmpDesc arr

/-- The pagination `before` hook viewed with the in-place effect of
`Array.prototype.sort` made explicit. -/
def paginationBeforeCall (arr : List ContentItem) :
    List ContentItem × List ContentItem :=
  jsSortInPlace cmpAsc arr

/-- Modelled from the spec: Eleventy's pagination engine is not part of
this repository; per the spec it splits the (possibly reordered) data
array into chunks of `size` items and generates one output page per chunk,
so that with `size = 1` every item yields exactly one page. -/
def paginate {α : Type} (size : Nat) (l : List α) : List (List α) :=
  match l with
  | [] => []
  | x :: xs =>
    match size with
    | 0 => [x :: xs]
    | s + 1 => (x :: xs.take s) :: paginate (s + 1) (xs.drop s)
termination_by l.length
decreasing_by
  simp only [List.length_cons, List.length_drop]
  omega

/-- The collections available to a build: the "post" tag collection always
exists; the "sortedPosts" collection is present exactly when
`eleventy.config.js` registered it. -/
structure BuildCollections where
  post : List ContentItem
  sortedPostsColl : Option (List ContentItem)
deriving DecidableEq

/-- Resolution of the paginator's data key: `posts.11tydata.js` declares
`data: "collections.post"`, so the paginator reads the raw "post" tag
collection of the build, never the "sortedPosts" collection. -/
def paginatorSource (s : BuildCollections) : List ContentItem :=
  s.post

/-- The pages a build generates for the posts: the paginator applies the
`before` hook to its data source and then chunks at `size = 1`. -/
def buildPages (s : BuildCollections) : List (List ContentItem) :=
  paginate 1 (paginationBefore (paginatorSource s))

/-- Strict ascending order on the numeric `index` keys of two items. -/
def idxLt (x y : ContentItem) : Prop :=
  ∃ nx ny, x.data.index = some nx ∧ y.data.index = some ny ∧ nx < ny

/-- Weak ascending order on the numeric `index` keys of two items. -/
def idxLe (x y : ContentItem) : Prop :=
  ∃ nx ny, x.data.index = some nx ∧ y.data.index = some ny ∧ nx ≤ ny

/-- Concrete post item with the given numeric `index`, used for the
worked example of the spec and for witnesses. -/
def mkPost (n : Int) (s : String) : ContentItem :=
  ContentItem.mk (ItemData.mk (some n) s s)

/-- Concrete post item whose front matter sets no `index`. -/
def postNoIdx : ContentItem :=
  ContentItem.mk (ItemData.mk none "draft" "Draft")

def post1 : ContentItem := mkPost 1 "p1"

def post2 : ContentItem := mkPost 2 "p2"

def post3 : ContentItem := mkPost 3 "p3"

/-- A comparator is total in sign: of any two elements, at least one
compares less-or-equal to the other. Both comparators of the source have
this property, `NaN` results included, because `SortCompare` coerces `NaN`
to `0`. -/
def CmpTotal {α : Type} (c : α → α → Int) : Prop :=
  ∀ a b, c a b ≤ 0 ∨ c b a ≤ 0

theorem cmpAsc_total : CmpTotal cmpAsc := by
  intro a b
  cases ha : a.data.index <;> cases hb : b.data.index <;>
    simp only [cmpAsc, jsSub, sortKey, ha, hb] <;> omega

theorem cmpDesc_total : CmpTotal cmpDesc := by
  intro a b
  cases ha : a.data.index <;> cases hb : b.data.index <;>
    simp only [cmpDesc, jsSub, sortKey, ha, hb] <;> omega

theorem jsInsert_perm {α : Type} (c : α → α → Int) (x : α) :
    ∀ l : List α, (jsInsert c x l).Perm (x :: l)
  | [] => List.Perm.refl _
  | b :: l => by
    by_cases h : c x b ≤ 0
    · simp [jsInsert, h]
    · simp only [jsInsert, if_neg h]
      exact (List.Perm.cons b (jsInsert_perm c x l)).trans (List.Perm.swap x b l)

theorem jsSort_perm {α : Type} (c : α → α → Int) :
    ∀ l : List α, (jsSort c l).Perm l
  | [] => List.Perm.refl _
  | x :: l =>
    (jsInsert_perm c x (jsSort c l)).trans (List.Perm.cons x (jsSort_perm c l))

theorem jsInsert_chain' {α : Type} (c : α → α → Int) (hc : CmpTotal c) (x : α) :
    ∀ l : List α, List.Chain' (fun a b => c a b ≤ 0) l →
      List.Chain' (fun a b => c a b ≤ 0) (jsInsert c x l)
  | [], _ => List.chain'_singleton x
  | b :: l, h => by
    by_cases hxb : c x b ≤ 0
    · simp only [jsInsert, if_pos hxb]
      rw [List.chain'_cons]
      exact ⟨hxb, h⟩
    · have hbx : c b x ≤ 0 := (hc x b).resolve_left hxb
      simp only [jsInsert, if_neg hxb]
      have htail : List.Chain' (fun a b => c a b ≤ 0) (jsInsert c x l) :=
        jsInsert_chain' c hc x l h.tail
      cases l with
      | nil =>
        simp only [jsInsert]
        rw [List.chain'_cons]
        exact ⟨hbx, List.chain'_singleton x⟩
      | cons d l₂ =>
        by_cases hxd : c x d ≤ 0
        · simp only [jsInsert, if_pos hxd] at htail ⊢
          rw [List.chain'_cons]
          exact ⟨hbx, htail⟩
        · have hbd : c b d ≤ 0 := (List.chain'_cons.mp h).1
          simp only [jsInsert, if_neg hxd] at htail ⊢
          rw [List.chain'_cons]
          exact ⟨hbd, htail⟩

theorem jsSort_chain' {α : Type} (c : α → α → Int) (hc : CmpTotal c) :
    ∀ l : List α, List.Chain' (fun a b => c a b ≤ 0) (jsSort c l)
  | [] => List.chain'_nil
  | x :: l => jsInsert_chain' c hc x (jsSort c l) (jsSort_chain' c hc l)

theorem jsSort_of_chain' {α : Type} (c : α → α → Int) :
    ∀ l : List α, List.Chain' (fun a b => c a b ≤ 0) l → jsSort c l = l
  | [], _ => rfl
  | [x], _ => by simp [jsSort, jsInsert]
  | x :: b :: l, h => by
    have hxb : c x b ≤ 0 := (List.chain'_cons.mp h).1
    have ih : jsSort c (b :: l) = b :: l :=
      jsSort_of_chain' c (b :: l) (List.chain'_cons.mp h).2
    show jsInsert c x (jsSort c (b :: l)) = x :: b :: l
    rw [ih]
    simp [jsInsert, hxb]

theorem jsSort_idem {α : Type} (c : α → α → Int) (hc : CmpTotal c)
    (l : List α) : jsSort c (jsSort c l) = jsSort c l :=
  jsSort_of_chain' c (jsSort c l) (jsSort_chain' c hc l)

theorem chain'_and {α : Type} {R S : α → α → Prop} :
    ∀ l : List α, List.Chain' R l → List.Chain' S l →
      List.Chain' (fun a b => R a b ∧ S a b) l
  | [], _, _ => List.chain'_nil
  | [a], _, _ => List.chain'_singleton a
  | a :: b :: t, hR, hS => by
    rw [List.chain'_cons] at hR hS
    rw [List.chain'_cons]
    exact ⟨⟨hR.1, hS.1⟩, chain'_and (b :: t) hR.2 hS.2⟩

theorem chain'_imp_mem {α : Type} {R S : α → α → Prop} :
    ∀ l : List α, List.Chain' R l →
      (∀ a, a ∈ l → ∀ b, b ∈ l → R a b → S a b) → List.Chain' S l
  | [], _, _ => List.chain'_nil
  | [a], _, _ => List.chain'_singleton a
  | a :: b :: t, hR, h => by
    rw [List.chain'_cons] at hR
    rw [List.chain'_cons]
    refine ⟨h a (by simp) b (by simp) hR.1, ?_⟩
    exact chain'_imp_mem (b :: t) hR.2 fun x hx y hy =>
      h x (List.mem_cons_of_mem a hx) y (List.mem_cons_of_mem a hy)

theorem filter_jsInsert_of_le {α : Type} (c : α → α → Int) (p : α → Bool)
    (x : α) (hx : p x = true) :
    ∀ l : List α, (∀ b ∈ l, p b = true → c x b ≤ 0) →
      (jsInsert c x l).filter p = x :: l.filter p
  | [], _ => by simp [jsInsert, hx]
  | b :: l, h => by
    by_cases hxb : c x b ≤ 0
    · simp [jsInsert, hxb, hx]
    · have hpb : p b = false := by
        cases hpb : p b with
        | true => exact absurd (h b (by simp) hpb) hxb
        | false => rfl
      simp only [jsInsert, if_neg hxb, List.filter_cons, hpb]
      simp only [Bool.false_eq_true, if_false]
      exact filter_jsInsert_of_le c p x hx l fun d hd hpd =>
        h d (List.mem_cons_of_mem b hd) hpd

theorem filter_jsInsert_of_not {α : Type} (c : α → α → Int) (p : α → Bool)
    (x : α) (hx : p x = false) :
    ∀ l : List α, (jsInsert c x l).filter p = l.filter p
  | [] => by simp [jsInsert, hx]
  | b :: l => by
    by_cases hxb : c x b ≤ 0
    · simp [jsInsert, hxb, hx]
    · simp only [jsInsert, if_neg hxb, List.filter_cons]
      rw [filter_jsInsert_of_not c p x hx l]

theorem jsSort_filter {α : Type} (c : α → α → Int) (p : α → Bool)
    (hp : ∀ a b, p a = true → p b = true → c a b ≤ 0) :
    ∀ l : List α, (jsSort c l).filter p = l.filter p
  | [] => rfl
  | x :: l => by
    show (jsInsert c x (jsSort c l)).filter p = (x :: l).filter p
    cases hx : p x with
    | true =>
      rw [filter_jsInsert_of_le c p x hx (jsSort c l)
        fun b _ hpb => hp x b hx hpb]
      rw [jsSort_filter c p hp l]
      simp [List.filter_cons, hx]
    | false =>
      rw [filter_jsInsert_of_not c p x hx (jsSort c l)]
      rw [jsSort_filter c p hp l]
      simp [List.filter_cons, hx]

theorem paginate_one_eq_map {α : Type} :
    ∀ l : List α, paginate 1 l = l.map fun x => [x]
  | [] => by simp [paginate]
  | x :: xs => by
    rw [paginate]
    simp [paginate_one_eq_map xs]

theorem paginate_one_length {α : Type} (l : List α) :
    (paginate 1 l).length = l.length := by
  rw [paginate_one_eq_map]
  exact List.length_map l _

theorem idxLt_trans :
    ∀ a b d : ContentItem, idxLt a b → idxLt b d → idxLt a d := by
  intro a b d h1 h2
  obtain ⟨na, nb, ha, hb, hab⟩ := h1
  obtain ⟨nb2, nd, hb2, hd, hbd⟩ := h2
  have : nb = nb2 := by
    have := hb.symm.trans hb2
    exact Option.some.inj this
  exact ⟨na, nd, ha, hd, by omega⟩

theorem idxLt_antisymm :
    ∀ a b : ContentItem, idxLt a b → idxLt b a → a = b := by
  intro a b h1 h2
  obtain ⟨na, nb, ha, hb, hab⟩ := h1
  obtain ⟨nb2, na2, hb2, ha2, hba⟩ := h2
  have e1 : na = na2 := Option.some.inj (ha.symm.trans ha2)
  have e2 : nb = nb2 := Option.some.inj (hb.symm.trans hb2)
  omega

theorem chain'_idxGt_sortedPosts (l : List ContentItem)
    (hnum : ∀ x ∈ l, ∃ n, x.data.index = some n)
    (hdist : l.Pairwise fun x y => x.data.index ≠ y.data.index) :
    List.Chain' (fun x y => idxLt y x) (sortedPosts l) := by
  have hperm : (sortedPosts l).Perm l := jsSort_perm cmpDesc l
  have hchain := jsSort_chain' cmpDesc cmpDesc_total l
  have hdist2 :
      (sortedPosts l).Pairwise fun x y => x.data.index ≠ y.data.index :=
    (List.Perm.pairwise_iff (fun hxy h => hxy h.symm) hperm).mpr hdist
  refine chain'_imp_mem (sortedPosts l)
    (chain'_and (sortedPosts l) hchain hdist2.chain') ?_
  intro a ha b hb hab
  obtain ⟨na, hna⟩ := hnum a (hperm.mem_iff.mp ha)
  obtain ⟨nb, hnb⟩ := hnum b (hperm.mem_iff.mp hb)
  obtain ⟨hle, hne⟩ := hab
  have hsub : nb - na ≤ 0 := by
    simpa [cmpDesc, jsSub, sortKey, hna, hnb] using hle
  have hne2 : na ≠ nb := fun hEq => hne (by rw [hna, hnb, hEq])
  exact ⟨nb, na, hnb, hna, by omega⟩

theorem chain'_idxLe_paginationBefore (l : List ContentItem)
    (hnum : ∀ x ∈ l, ∃ n, x.data.index = some n) :
    List.Chain' idxLe (paginationBefore l) := by
  have hperm : (paginationBefore l).Perm l := jsSort_perm cmpAsc l
  refine chain'_imp_mem (paginationBefore l)
    (jsSort_chain' cmpAsc cmpAsc_total l) ?_
  intro a ha b hb hab
  obtain ⟨na, hna⟩ := hnum a (hperm.mem_iff.mp ha)
  obtain ⟨nb, hnb⟩ := hnum b (hperm.mem_iff.mp hb)
  have hsub : na - nb ≤ 0 := by
    simpa [cmpAsc, jsSub, sortKey, hna, hnb] using hab
  exact ⟨na, nb, hna, hnb, by omega⟩

theorem chain'_idxLt_paginationBefore (l : List ContentItem)
    (hnum : ∀ x ∈ l, ∃ n, x.data.index = some n)
    (hdist : l.Pairwise fun x y => x.data.index ≠ y.data.index) :
    List.Chain' idxLt (paginationBefore l) := by
  have hperm : (paginationBefore l).Perm l := jsSort_perm cmpAsc l
  have hchain := jsSort_chain' cmpAsc cmpAsc_total l
  have hdist2 :
      (paginationBefore l).Pairwise fun x y => x.data.index ≠ y.data.index :=
    (List.Perm.pairwise_iff (fun hxy h => hxy h.symm) hperm).mpr hdist
  refine chain'_imp_mem (paginationBefore l)
    (chain'_and (paginationBefore l) hchain hdist2.chain') ?_
  intro a ha b hb hab
  obtain ⟨na, hna⟩ := hnum a (hperm.mem_iff.mp ha)
  obtain ⟨nb, hnb⟩ := hnum b (hperm.mem_iff.mp hb)
  obtain ⟨hle, hne⟩ := hab
  have hsub : na - nb ≤ 0 := by
    simpa [cmpAsc, jsSub, sortKey, hna, hnb] using hle
  have hne2 : na ≠ nb := fun hEq => hne (by rw [hna, hnb, hEq])
  exact ⟨na, nb, hna, hnb, by omega⟩

/-- C1: for every finite set of post items in which every item has a
distinct numeric index, the sortedPosts collection callback returns a
permutation of the input in which every adjacent pair is strictly
descending by index (numeric-largest index first). -/
theorem sortedPosts_perm_desc (l : List ContentItem)
    (hnum : ∀ x ∈ l, ∃ n, x.data.index = some n)
    (hdist : l.Pairwise fun x y => x.data.index ≠ y.data.index) :
    (sortedPosts l).Perm l ∧
    List.Chain' (fun x y => idxLt y x) (sortedPosts l) :=
  ⟨jsSort_perm cmpDesc l, chain'_idxGt_sortedPosts l hnum hdist⟩

theorem sortedPosts_perm_desc_witness :
    (sortedPosts [post1, post3, post2]).Perm [post1, post3, post2] ∧
    List.Chain' (fun x y => idxLt y x) (sortedPosts [post1, post3, post2]) :=
  sortedPosts_perm_desc [post1, post3, post2]
    (by intro x hx; fin_cases hx <;> exact ⟨_, rfl⟩)
    (by decide)

/-- C2: for every finite set of post items with numeric indexes, the
pagination before hook returns a permutation of the input in ascending
index order (strictly ascending on each adjacent pair with distinct
indexes), and size-1 pagination generates exactly one page per item. -/
theorem paginationBefore_asc_page_count (l : List ContentItem)
    (hnum : ∀ x ∈ l, ∃ n, x.data.index = some n) :
    (paginationBefore l).Perm l ∧
    List.Chain' idxLe (paginationBefore l) ∧
    List.Chain' (fun x y => x.data.index ≠ y.data.index → idxLt x y)
      (paginationBefore l) ∧
    (paginate 1 (paginationBefore l)).length = l.length := by
  refine ⟨jsSort_perm cmpAsc l, chain'_idxLe_paginationBefore l hnum, ?_, ?_⟩
  · refine (chain'_idxLe_paginationBefore l hnum).imp ?_
    intro a b hle hne
    obtain ⟨na, nb, hna, hnb, h⟩ := hle
    have : na ≠ nb := fun hEq => hne (by rw [hna, hnb, hEq])
    exact ⟨na, nb, hna, hnb, by omega⟩
  · rw [paginate_one_length]
    exact (jsSort_perm cmpAsc l).length_eq

theorem paginationBefore_asc_page_count_witness :
    (paginationBefore [post1, post3, post2]).Perm [post1, post3, post2] ∧
    List.Chain' idxLe (paginationBefore [post1, post3, post2]) ∧
    List.Chain' (fun x y => x.data.index ≠ y.data.index → idxLt x y)
      (paginationBefore [post1, post3, post2]) ∧
    (paginate 1 (paginationBefore [post1, post3, post2])).length =
      ([post1, post3, post2] : List ContentItem).length :=
  paginationBefore_asc_page_count [post1, post3, post2]
    (by intro x hx; fin_cases hx <;> exact ⟨_, rfl⟩)

/-- C3 counterexample: ECMAScript `Array.prototype.sort` sorts in place,
so after the pagination before hook (and likewise the sortedPosts
callback) runs on an unsorted array, that array no longer holds its items
in their original order. -/
theorem sort_inplace_counterexample :
    (paginationBeforeCall [post2, post1]).2 ≠ [post2, post1] ∧
    (sortedPostsCall [post1, post2]).2 ≠ [post1, post2] := by
  decide

/-- C3 amended: neither operation mutates any ContentItem — every output
item is an input item, held unchanged, with no loss or duplication — but
the sort is performed in place: the returned array is the very input
array, which afterwards holds the items in sorted order rather than their
original order. -/
theorem sort_inplace_amended (l : List ContentItem) :
    (sortedPostsCall l).2 = (sortedPostsCall l).1 ∧
    (paginationBeforeCall l).2 = (paginationBeforeCall l).1 ∧
    ((sortedPostsCall l).1).Perm l ∧
    ((paginationBeforeCall l).1).Perm l ∧
    (∀ x ∈ (sortedPostsCall l).1, x ∈ l) ∧
    (∀ x ∈ (paginationBeforeCall l).1, x ∈ l) :=
  ⟨rfl, rfl, jsSort_perm cmpDesc l, jsSort_perm cmpAsc l,
   fun _ hx => (jsSort_perm cmpDesc l).mem_iff.mp hx,
   fun _ hx => (jsSort_perm cmpAsc l).mem_iff.mp hx⟩

/-- C4: an item with missing index makes the comparator arithmetic
evaluate to NaN, which SortCompare coerces to 0; no error is raised, both
sorts complete with every item present, and the item is placed at the
position the (deterministic) stable sort assigns it. -/
theorem missing_index_nan_no_throw (l : List ContentItem)
    (x : ContentItem) (hx : x ∈ l) (hmiss : x.data.index = none) :
    (∀ y : ContentItem,
      jsSub x.data.index y.data.index = JSNum.nan ∧
      jsSub y.data.index x.data.index = JSNum.nan ∧
      cmpDesc x y = 0 ∧ cmpAsc x y = 0 ∧ cmpDesc y x = 0 ∧ cmpAsc y x = 0) ∧
    (sortedPosts l).Perm l ∧ x ∈ sortedPosts l ∧
    (paginationBefore l).Perm l ∧ x ∈ paginationBefore l := by
  refine ⟨?_, jsSort_perm cmpDesc l,
    (jsSort_perm cmpDesc l).mem_iff.mpr hx,
    jsSort_perm cmpAsc l,
    (jsSort_perm cmpAsc l).mem_iff.mpr hx⟩
  intro y
  cases hy : y.data.index <;>
    simp [jsSub, cmpDesc, cmpAsc, sortKey, hmiss, hy]

theorem missing_index_nan_no_throw_witness :
    postNoIdx ∈ [post1, postNoIdx] ∧ postNoIdx.data.index = none ∧
    cmpDesc postNoIdx post1 = 0 ∧ cmpAsc postNoIdx post1 = 0 ∧
    (sortedPosts [post1, postNoIdx]).Perm [post1, postNoIdx] ∧
    postNoIdx ∈ sortedPosts [post1, postNoIdx] :=
  have h := missing_index_nan_no_throw [post1, postNoIdx] postNoIdx
    (by decide) rfl
  ⟨by decide, rfl, (h.1 post1).2.2.1, (h.1 post1).2.2.2.1, h.2.1, h.2.2.1⟩

/-- C5: on the concrete input with indexes [1, 3, 2] the sortedPosts
callback yields index order [3, 2, 1], and the paginator yields index
order [1, 2, 3], one page per item. -/
theorem concrete_example_orders :
    sortedPosts [post1, post3, post2] = [post3, post2, post1] ∧
    paginationBefore [post1, post3, post2] = [post1, post2, post3] ∧
    paginate 1 (paginationBefore [post1, post3, post2]) =
      [[post1], [post2], [post3]] := by
  refine ⟨by decide, by decide, ?_⟩
  rw [paginate_one_eq_map]
  decide

/-- C6: for every input, including inputs with duplicate index values,
both operations return a permutation of the input: every item appears in
the output exactly as often as in the input, with no duplication and no
loss. -/
theorem sort_permutation_no_loss (l : List ContentItem) :
    (sortedPosts l).Perm l ∧ (paginationBefore l).Perm l ∧
    ∀ x : ContentItem, (sortedPosts l).count x = l.count x ∧
      (paginationBefore l).count x = l.count x :=
  ⟨jsSort_perm cmpDesc l, jsSort_perm cmpAsc l,
   fun x => ⟨(jsSort_perm cmpDesc l).count_eq x,
     (jsSort_perm cmpAsc l).count_eq x⟩⟩

/-- C7: both operations are idempotent — sorting an already-sorted
sequence returns the same sequence, so running either twice on the same
input yields the identical ordering. -/
theorem sort_idempotent (l : List ContentItem) :
    sortedPosts (sortedPosts l) = sortedPosts l ∧
    paginationBefore (paginationBefore l) = paginationBefore l :=
  ⟨jsSort_idem cmpDesc cmpDesc_total l, jsSort_idem cmpAsc cmpAsc_total l⟩

/-- C8: for distinct numeric indexes the paginator's ascending order is
exactly the reverse of the sortedPosts descending order. -/
theorem pagination_reverse_of_sorted (l : List ContentItem)
    (hnum : ∀ x ∈ l, ∃ n, x.data.index = some n)
    (hdist : l.Pairwise fun x y => x.data.index ≠ y.data.index) :
    paginationBefore l = (sortedPosts l).reverse := by
  haveI : IsTrans ContentItem idxLt := ⟨idxLt_trans⟩
  haveI : IsAntisymm ContentItem idxLt := ⟨idxLt_antisymm⟩
  haveI : IsTrans ContentItem (fun x y => idxLt y x) :=
    ⟨fun a b d h1 h2 => idxLt_trans d b a h2 h1⟩
  have s1 : List.Sorted idxLt (paginationBefore l) :=
    List.chain'_iff_pairwise.mp (chain'_idxLt_paginationBefore l hnum hdist)
  have s2p : (sortedPosts l).Pairwise (fun x y => idxLt y x) :=
    List.chain'_iff_pairwise.mp (chain'_idxGt_sortedPosts l hnum hdist)
  have s2 : List.Sorted idxLt ((sortedPosts l).reverse) :=
    List.pairwise_reverse.mpr s2p
  have hp : (paginationBefore l).Perm ((sortedPosts l).reverse) :=
    (jsSort_perm cmpAsc l).trans
      ((List.reverse_perm (sortedPosts l)).trans (jsSort_perm cmpDesc l)).symm
  exact List.eq_of_perm_of_sorted hp s1 s2

theorem pagination_reverse_of_sorted_witness :
    paginationBefore [post1, post3, post2] =
      (sortedPosts [post1, post3, post2]).reverse :=
  pagination_reverse_of_sorted [post1, post3, post2]
    (by intro x hx; fin_cases hx <;> exact ⟨_, rfl⟩)
    (by decide)

/-- C9: both sorts are stable — for every input sequence and every numeric
index value, the items carrying that index value appear in the output in
exactly their relative input order. -/
theorem sort_stable_equal_index (l : List ContentItem) (n : Int) :
    (sortedPosts l).filter (fun x => decide (x.data.index = some n)) =
      l.filter (fun x => decide (x.data.index = some n)) ∧
    (paginationBefore l).filter (fun x => decide (x.data.index = some n)) =
      l.filter (fun x => decide (x.data.index = some n)) := by
  constructor
  · refine jsSort_filter cmpDesc _ ?_ l
    intro a b ha hb
    have ha2 : a.data.index = some n := of_decide_eq_true ha
    have hb2 : b.data.index = some n := of_decide_eq_true hb
    simp [cmpDesc, jsSub, sortKey, ha2, hb2]
  · refine jsSort_filter cmpAsc _ ?_ l
    intro a b ha hb
    have ha2 : a.data.index = some n := of_decide_eq_true ha
    have hb2 : b.data.index = some n := of_decide_eq_true hb
    simp [cmpAsc, jsSub, sortKey, ha2, hb2]

/-- C10: the paginator reads the raw "post" tag collection, not the
"sortedPosts" collection: two builds over the same post items produce the
identical page order regardless of whether the sortedPosts collection is
registered, so the pages depend only on the post items themselves. -/
theorem buildPages_reads_post_only (s₁ s₂ : BuildCollections)
    (h : s₁.post = s₂.post) : buildPages s₁ = buildPages s₂ := by
  simp only [buildPages, paginatorSource, h]

theorem buildPages_reads_post_only_witness :
    (BuildCollections.mk [post1, post2]
        (some (sortedPosts [post1, post2]))).post =
      (BuildCollections.mk [post1, post2] none).post ∧
    buildPages (BuildCollections.mk [post1, post2]
        (some (sortedPosts [post1, post2]))) =
      buildPages (BuildCollections.mk [post1, post2] none) :=
  ⟨rfl, buildPages_reads_post_only
    (BuildCollections.mk [post1, post2] (some (sortedPosts [post1, post2])))
    (BuildCollections.mk [post1, post2] none) rfl⟩
